import Mathlib

/-!
Shallow embedding of the KG_products graph-ingestion pipeline, covering
`src/modules/parse_specifications.py` and `src/modules/neo4j.py`.
Python strings are modelled through their underlying character lists so that
every operation is computable by structural recursion.
-/

namespace KGProducts

/-- Characters stripped by Python `str.strip()` (the ASCII whitespace set). -/
def isSpaceChar (c : Char) : Bool :=
  c = ' ' || c = '\t' || c = '\n' || c = '\r' || c = '\x0b' || c = '\x0c'

/-- Model of Python `str.strip()` on a character list. -/
def trimChars (l : List Char) : List Char :=
  ((l.dropWhile isSpaceChar).reverse.dropWhile isSpaceChar).reverse

/-- Model of Python `s.split(c)` for a one-character separator: keeps empty
fragments, and splitting the empty string yields one empty fragment. -/
def splitChar (c : Char) : List Char → List (List Char)
  | [] => [[]]
  | x :: xs =>
    if x = c then [] :: splitChar c xs
    else
      match splitChar c xs with
      | [] => [[x]]
      | g :: gs => (x :: g) :: gs

/-- Model of Python `s.split(c, 1)`: `none` when the separator is absent,
otherwise the part before its first occurrence and the part after it. -/
def splitFirstChar (c : Char) : List Char → Option (List Char × List Char)
  | [] => none
  | x :: xs =>
    if x = c then some ([], xs)
    else (splitFirstChar c xs).map (fun p => (x :: p.1, p.2))

/-- Model of Python `pat in s` (substring containment). -/
def containsSub (pat : List Char) : List Char → Bool
  | [] => pat.isEmpty
  | x :: xs => pat.isPrefixOf (x :: xs) || containsSub pat xs

/-- Decimal digit characters, used to model Python f-string rendering of a
row index. Arguments ≥ 10 never occur. -/
def digitChar : Nat → Char
  | 0 => '0' | 1 => '1' | 2 => '2' | 3 => '3' | 4 => '4'
  | 5 => '5' | 6 => '6' | 7 => '7' | 8 => '8' | _ => '9'

/-- Numeric value of a decimal digit character. -/
def digitVal (c : Char) : Nat :=
  if c = '0' then 0 else if c = '1' then 1 else if c = '2' then 2
  else if c = '3' then 3 else if c = '4' then 4 else if c = '5' then 5
  else if c = '6' then 6 else if c = '7' then 7 else if c = '8' then 8 else 9

/-- Fuel-driven decimal rendering of a natural number (most significant digit
first); with fuel larger than the number it renders the full decimal form. -/
def natToStringAux : Nat → Nat → List Char
  | 0, _ => []
  | fuel + 1, n =>
    if n < 10 then [digitChar n]
    else natToStringAux fuel (n / 10) ++ [digitChar (n % 10)]

/-- Decimal rendering of a natural number, modelling Python `f"{n}"`. -/
def natToString (n : Nat) : String :=
  ⟨natToStringAux (n + 1) n⟩

/-- Reads a digit list back as a number; retraction used to show that decimal
rendering is injective. -/
def strVal (l : List Char) : Nat :=
  l.foldl (fun a c => 10 * a + digitVal c) 0

theorem strVal_append_digit (l : List Char) (c : Char) :
    strVal (l ++ [c]) = 10 * strVal l + digitVal c := by
  simp [strVal, List.foldl_append]

theorem digitVal_digitChar : ∀ n, n < 10 → digitVal (digitChar n) = n := by
  decide

theorem natToStringAux_val (fuel : Nat) :
    ∀ n, n < fuel → strVal (natToStringAux fuel n) = n := by
  induction fuel with
  | zero => intro n h; omega
  | succ f ih =>
    intro n h
    by_cases h10 : n < 10
    · simp only [natToStringAux, if_pos h10]
      have hd := digitVal_digitChar n h10
      simp [strVal, hd]
    · simp only [natToStringAux, if_neg h10]
      rw [strVal_append_digit]
      have hdiv : n / 10 < f := by omega
      rw [ih (n / 10) hdiv, digitVal_digitChar (n % 10) (by omega)]
      omega

theorem natToStringAux_inj {m n : Nat}
    (h : natToStringAux (m + 1) m = natToStringAux (n + 1) n) : m = n := by
  have hm := natToStringAux_val (m + 1) m (by omega)
  have hn := natToStringAux_val (n + 1) n (by omega)
  rw [h, hn] at hm
  omega

theorem natToString_inj {m n : Nat} (h : natToString m = natToString n) :
    m = n := by
  have h2 : natToStringAux (m + 1) m = natToStringAux (n + 1) n :=
    congrArg String.data h
  exact natToStringAux_inj h2

/-!
Specification parser, from `src/modules/parse_specifications.py`.
The external Text Normalizer (`split_glued_words`, an LLM call) is passed in
as an opaque string-to-string function.
-/

/-- Sentinel phrase: when the normalizer's output contains it, the parser
falls back to the original trimmed token (`parse_specifications.py:20,25`). -/
def sentinel : String := "no glued words"

/-- Python dict assignment `d[k] = v` on an insertion-ordered dictionary:
overwrites in place when the key exists, otherwise appends. -/
def dictInsert (d : List (String × String)) (k v : String) :
    List (String × String) :=
  if ∃ p ∈ d, p.1 = k then d.map (fun p => if p.1 = k then (k, v) else p)
  else d ++ [(k, v)]

/-- Normalizer invocation with sentinel fallback
(`parse_specifications.py:18-26`, identical hack for key and value). -/
def normalizeToken (split_glued_words : String → String) (t : String) :
    String :=
  let out := split_glued_words t
  if containsSub sentinel.data out.data then t else out

/-- Loop body of `parse_specifications` for a single pipe-delimited fragment
(`parse_specifications.py:9-28`): fragments with no colon are skipped; a
fragment starting with the literal characters of "ASIN" stores its trimmed
value verbatim under key "ASIN"; every other fragment is split at the first
colon and both sides are trimmed and normalized. -/
def processFragment (split_glued_words : String → String)
    (d : List (String × String)) (frag : List Char) :
    List (String × String) :=
  match splitFirstChar ':' frag with
  | none => d
  | some (k, v) =>
    if ("ASIN".data).isPrefixOf frag then
      dictInsert d "ASIN" ⟨trimChars v⟩
    else
      dictInsert d (normalizeToken split_glued_words ⟨trimChars k⟩)
        (normalizeToken split_glued_words ⟨trimChars v⟩)

/-- Model of `parse_specifications` (`parse_specifications.py:4-30`): empty
input yields an empty mapping; otherwise the input splits on the pipe and the
fragments are folded into an insertion-ordered dictionary. -/
def parse_specifications (split_glued_words : String → String)
    (spec_str : String) : List (String × String) :=
  if spec_str = "" then []
  else (splitChar '|' spec_str.data).foldl (processFragment split_glued_words) []

/-!
Data model for batches, from `src/modules/neo4j.py`. A pandas cell holds
either a string or the parsed-specifications dictionary; a row is an
insertion-ordered mapping from column name to cell, and a `DataFrame` carries
its column list (checked by `validate_data`) plus its rows (iterated by
`iterrows` with the default positional index).
-/

inductive Value where
  | str (s : String)
  | dict (d : List (String × String))
deriving DecidableEq

abbrev Row := List (String × Value)

structure DataFrame where
  columns : List String
  rows : List Row
deriving DecidableEq

/-- Cell lookup in a row. -/
def rowGet (row : Row) (col : String) : Option Value :=
  (row.find? (fun p => p.1 == col)).map (fun p => p.2)

/-- String cell with empty-string default, modelling
`row.get(col, '') or ''` and `row[col]` for a validated string column. -/
def rowGetStr (row : Row) (col : String) : String :=
  match rowGet row col with
  | some (Value.str s) => s
  | _ => ""

/-- Dictionary cell with empty-dict default, modelling `row.get(col, {})`. -/
def rowGetDict (row : Row) (col : String) : List (String × String) :=
  match rowGet row col with
  | some (Value.dict d) => d
  | _ => []

/-!
Graph-store operations. Each constructor is one parameterized `tx.run` upsert
statement issued by `Neo4j` (`neo4j.py:116-188`).
-/

inductive Op where
  | upsertProduct (pid name description price : String)
  | upsertCategory (name : String)
  | belongsTo (pid name : String)
  | upsertSpec (key value : String)
  | hasSpec (pid key value : String)
deriving DecidableEq

/-- Product identifier `f"product_{index}"` (`neo4j.py:73`). -/
def productId (i : Nat) : String :=
  "product_" ++ natToString i

/-- The `MERGE (p:Product ...) SET ...` statement for one row
(`neo4j.py:73-79,116-130`). -/
def productOp (i : Nat) (row : Row) : Op :=
  Op.upsertProduct (productId i) (rowGetStr row "Product Name")
    (rowGetStr row "Description") (rowGetStr row "Selling Price")

/-- Category names of a row (`neo4j.py:90-100`): the empty string yields no
work, otherwise the cell splits on the pipe and each fragment is stripped —
empty fragments are kept. -/
def categoriesOf (row : Row) : List String :=
  let c := rowGetStr row "Category"
  if c = "" then []
  else (splitChar '|' c.data).map (fun l => (⟨trimChars l⟩ : String))

/-- Statements issued by the category loop (`neo4j.py:100-102`): for each
category, upsert the node then the BELONGS_TO edge. -/
def catOps (pid : String) : List String → List Op
  | [] => []
  | c :: cs => Op.upsertCategory c :: Op.belongsTo pid c :: catOps pid cs

/-- Statements issued by the specification loop (`neo4j.py:112-114`): for each
pair, upsert the node then the HAS_SPECIFICATION edge. -/
def specOps (pid : String) : List (String × String) → List Op
  | [] => []
  | kv :: rest =>
    Op.upsertSpec kv.1 kv.2 :: Op.hasSpec pid kv.1 kv.2 :: specOps pid rest

/-- All statements issued for one row (`neo4j.py:72-85`): product node first,
then category nodes/edges, then specification nodes/edges. -/
def rowOps (i : Nat) (row : Row) : List Op :=
  productOp i row ::
    (catOps (productId i) (categoriesOf row) ++
      specOps (productId i) (rowGetDict row "Parsed Specifications"))

/-- Statements issued for the rows of a batch starting at row index `i`. -/
def batchOpsFrom : Nat → List Row → List Op
  | _, [] => []
  | i, r :: rs => rowOps i r ++ batchOpsFrom (i + 1) rs

/-- All statements issued for a batch (`neo4j.py:72-85`). -/
def batchOps (rows : List Row) : List Op :=
  batchOpsFrom 0 rows

/-- Required columns (`neo4j.py:198`). -/
def required_columns : List String :=
  ["Product Name", "Parsed Specifications"]

/-- The validation loop (`neo4j.py:199-201`): raises on the first required
column that is absent. -/
def checkColumns : List String → List String → Except String Unit
  | [], _ => Except.ok ()
  | c :: rest, cols =>
    if c ∈ cols then checkColumns rest cols
    else Except.error ("Missing required column: " ++ c)

/-- Model of `Neo4j.validate_data` (`neo4j.py:190-201`). -/
def validate_data (cols : List String) : Except String Unit :=
  checkColumns required_columns cols

/-!
Graph-store state and the semantics of each upsert statement. `MERGE` is
modelled content-addressed: a node or edge is created only when absent, and
an edge `MATCH` that finds no endpoint row does nothing.
-/

structure Graph where
  products : List (String × String × String × String)
  categories : List String
  specs : List (String × String)
  belongsTo : List (String × String)
  hasSpec : List (String × String × String)
deriving DecidableEq

def emptyGraph : Graph :=
  ⟨[], [], [], [], []⟩

/-- Effect of one upsert statement on the store (`neo4j.py:116-188`):
`MERGE` on a product id overwrites the scalar attributes or creates the node;
`MERGE` on a category name or a specification (key, value) pair creates the
node only when absent; an edge `MERGE` first has to `MATCH` both endpoints
and creates the edge only when both exist and the edge is absent. -/
def applyOp (g : Graph) : Op → Graph
  | Op.upsertProduct pid n d p =>
    if ∃ q ∈ g.products, q.1 = pid then
      { g with products :=
          g.products.map (fun q => if q.1 = pid then (pid, n, d, p) else q) }
    else { g with products := g.products ++ [(pid, n, d, p)] }
  | Op.upsertCategory c =>
    if c ∈ g.categories then g
    else { g with categories := g.categories ++ [c] }
  | Op.upsertSpec k v =>
    if (k, v) ∈ g.specs then g
    else { g with specs := g.specs ++ [(k, v)] }
  | Op.belongsTo pid c =>
    if (∃ q ∈ g.products, q.1 = pid) ∧ c ∈ g.categories then
      if (pid, c) ∈ g.belongsTo then g
      else { g with belongsTo := g.belongsTo ++ [(pid, c)] }
    else g
  | Op.hasSpec pid k v =>
    if (∃ q ∈ g.products, q.1 = pid) ∧ (k, v) ∈ g.specs then
      if (pid, k, v) ∈ g.hasSpec then g
      else { g with hasSpec := g.hasSpec ++ [(pid, k, v)] }
    else g

def applyOps (g : Graph) (ops : List Op) : Graph :=
  ops.foldl applyOp g

/-- Sequential execution of the batch's statements inside one transaction.
`failMsg` models the store: `some m` means `tx.run` raises an exception with
message `m` on that statement. Returns the outcome together with the list of
statements actually attempted (the failing one included). -/
def runOps (failMsg : Op → Option String) (g : Graph) :
    List Op → Except String Graph × List Op
  | [] => (Except.ok g, [])
  | o :: rest =>
    match failMsg o with
    | some m => (Except.error m, [o])
    | none =>
      let r := runOps failMsg (applyOp g o) rest
      (r.1, o :: r.2)

/-- A store that never fails. -/
def noFail : Op → Option String :=
  fun _ => none

/-- A store that raises "boom" on one designated statement. -/
def failOn (bad : Op) : Op → Option String :=
  fun o => if o = bad then some "boom" else none

instance {α β : Type} [DecidableEq α] [DecidableEq β] :
    DecidableEq (Except α β) := fun a b =>
  match a, b with
  | Except.ok x, Except.ok y =>
    if h : x = y then isTrue (by rw [h]) else isFalse (by simp [h])
  | Except.error x, Except.error y =>
    if h : x = y then isTrue (by rw [h]) else isFalse (by simp [h])
  | Except.ok _, Except.error _ => isFalse (by simp)
  | Except.error _, Except.ok _ => isFalse (by simp)

/-- Observable outcome of one `create` call: the exception propagated to the
caller (if any), the store state visible afterwards, and the upsert
statements that were attempted. -/
structure IngestResult where
  outcome : Except String Unit
  graph : Graph
  attempted : List Op
deriving DecidableEq

/-- Model of `Neo4j.create` (`neo4j.py:57-88`) under the
`handle_transaction_errors` decorator (`neo4j.py:11-24`): validation runs
first and a validation exception aborts the call before any statement is
issued; otherwise the batch's statements run inside a single transaction —
on success the transaction commits, and on the first raising statement the
transaction rolls back (no mutation stays visible) and the underlying
exception is re-raised unchanged. -/
def create (failMsg : Op → Option String) (df : DataFrame) (g : Graph) :
    IngestResult :=
  match validate_data df.columns with
  | Except.error e => ⟨Except.error e, g, []⟩
  | Except.ok _ =>
    match runOps failMsg g (batchOps df.rows) with
    | (Except.ok g1, tr) => ⟨Except.ok (), g1, tr⟩
    | (Except.error m, tr) => ⟨Except.error m, g, tr⟩

/-!
Generic model of the `handle_transaction_errors` decorator (`neo4j.py:11-24`),
independent of `create`: the wrapped call either succeeds or raises with some message
while leaving the object in some state; `tx` is the object's transaction
handle and `rollbacks` records the handles on which a rollback was attempted.
-/

structure TxState where
  tx : Option Nat
  rollbacks : List Nat
deriving DecidableEq

/-- The decorator's wrapper (`neo4j.py:15-22`): a successful call passes
through; on an exception, `rollback` is attempted exactly when the object's
`tx` is non-null, and the same exception is re-raised. -/
def handle_transaction_errors
    (f : TxState → Except (String × TxState) TxState) (s : TxState) :
    Except (String × TxState) TxState :=
  match f s with
  | Except.ok s1 => Except.ok s1
  | Except.error (e, s1) =>
    match s1.tx with
    | none => Except.error (e, s1)
    | some t => Except.error (e, { s1 with rollbacks := s1.rollbacks ++ [t] })

/-!
Parser lemmas.
-/

theorem splitChar_no_sep {c : Char} (l : List Char) (h : c ∉ l) :
    splitChar c l = [l] := by
  induction l with
  | nil => rfl
  | cons x xs ih =>
    have hx : ¬ x = c := by
      intro he; rw [he] at h; exact h (List.mem_cons_self c xs)
    have hxs : c ∉ xs := fun hm => h (List.mem_cons_of_mem x hm)
    simp only [splitChar, if_neg hx, ih hxs]

theorem splitFirstChar_none {c : Char} (l : List Char) (h : c ∉ l) :
    splitFirstChar c l = none := by
  induction l with
  | nil => rfl
  | cons x xs ih =>
    have hx : ¬ x = c := by
      intro he; rw [he] at h; exact h (List.mem_cons_self c xs)
    have hxs : c ∉ xs := fun hm => h (List.mem_cons_of_mem x hm)
    simp [splitFirstChar, hx, ih hxs]

theorem splitFirstChar_append {c : Char} (k v : List Char) (hk : c ∉ k) :
    splitFirstChar c (k ++ c :: v) = some (k, v) := by
  induction k with
  | nil => simp [splitFirstChar]
  | cons x xs ih =>
    have hx : ¬ x = c := by
      intro he; rw [he] at hk; exact hk (List.mem_cons_self c xs)
    have hxs : c ∉ xs := fun hm => hk (List.mem_cons_of_mem x hm)
    simp [splitFirstChar, hx, ih hxs]

theorem dictInsert_nil (k v : String) : dictInsert [] k v = [(k, v)] := by
  simp [dictInsert]

/-- Evaluation of the parser on a one-fragment input containing a colon:
the fragment is split at its first colon, the "ASIN"-prefixed bypass stores
the trimmed value verbatim, and every other fragment has trimmed key and
value passed through the normalizer. -/
theorem parse_single_fragment (f : String → String) (s : String)
    (k v : List Char) (hs : s.data = k ++ ':' :: v) (hk : ':' ∉ k)
    (hkp : '|' ∉ k) (hvp : '|' ∉ v) :
    parse_specifications f s =
      [ if ("ASIN".data).isPrefixOf (k ++ ':' :: v) then
          (("ASIN" : String), (⟨trimChars v⟩ : String))
        else
          (normalizeToken f ⟨trimChars k⟩, normalizeToken f ⟨trimChars v⟩) ] := by
  have hne : ¬ s = "" := by
    intro h
    rw [h] at hs
    have h0 : ([] : List Char) = k ++ ':' :: v := hs
    cases k <;> simp at h0
  have hpipe : '|' ∉ k ++ ':' :: v := by
    intro hm
    rcases List.mem_append.mp hm with h1 | h1
    · exact hkp h1
    · rcases List.mem_cons.mp h1 with h2 | h2
      · exact absurd h2 (by decide)
      · exact hvp h2
  unfold parse_specifications
  rw [if_neg hne, hs, splitChar_no_sep _ hpipe]
  simp only [List.foldl]
  unfold processFragment
  rw [splitFirstChar_append k v hk]
  cases hA : ("ASIN".data).isPrefixOf (k ++ ':' :: v) <;>
    simp [hA, dictInsert_nil]

/-- Claim C5 counterexample: the fragment `" ASIN: B07XYZ123"` has trimmed
key exactly `"ASIN"`, yet it does not receive the bypass — under a normalizer
that appends `"X"` the parse result is not the verbatim
`[("ASIN", "B07XYZ123")]` the claim demands, because the bypass is keyed on
the raw fragment's literal "ASIN" *beginning*, which a leading space defeats. -/
theorem c5_counterexample :
    trimChars (((splitFirstChar ':' (" ASIN: B07XYZ123".data)).getD ([], [])).1)
      = "ASIN".data
    ∧ parse_specifications (fun s => s ++ "X") " ASIN: B07XYZ123"
        = [("ASINX", "B07XYZ123X")]
    ∧ [(("ASINX" : String), ("B07XYZ123X" : String))]
        ≠ [(("ASIN" : String), ("B07XYZ123" : String))] := by
  decide

/-- Claim C5, amended: for a single colon-carrying fragment, the reserved
bypass applies exactly when the raw fragment starts with the literal
characters "ASIN" (untrimmed literal-prefix test, not equality of the trimmed
key): then the value after the first colon is trimmed and stored verbatim
under "ASIN"; otherwise key and value are trimmed and normalized. -/
theorem c5_amended (f : String → String) (s : String)
    (k v : List Char) (hs : s.data = k ++ ':' :: v) (hk : ':' ∉ k)
    (hkp : '|' ∉ k) (hvp : '|' ∉ v) :
    parse_specifications f s =
      [ if ("ASIN".data).isPrefixOf (k ++ ':' :: v) then
          (("ASIN" : String), (⟨trimChars v⟩ : String))
        else
          (normalizeToken f ⟨trimChars k⟩, normalizeToken f ⟨trimChars v⟩) ] :=
  parse_single_fragment f s k v hs hk hkp hvp

/-- Witness for `c5_amended` at the concrete fragment "ASIN: B07XYZ123". -/
theorem c5_witness :
    parse_specifications (fun s => s) "ASIN: B07XYZ123"
      = [("ASIN", "B07XYZ123")] := by
  have h := c5_amended (fun s => s) "ASIN: B07XYZ123" ("ASIN".data)
    (" B07XYZ123".data) (by decide) (by decide) (by decide) (by decide)
  exact h.trans (by decide)

/-- Claim C6: the parser splits on the pipe, a fragment with no colon
contributes nothing, and with an identity normalizer
`"A:1|BadFragmentNoColon|B:2"` parses to exactly `{A: 1, B: 2}`. -/
theorem c6 :
    (∀ (f : String → String) (d : List (String × String)) (frag : List Char),
        ':' ∉ frag → processFragment f d frag = d)
    ∧ parse_specifications (fun s => s) "A:1|BadFragmentNoColon|B:2"
        = [("A", "1"), ("B", "2")] := by
  constructor
  · intro f d frag h
    unfold processFragment
    rw [splitFirstChar_none frag h]
  · decide

/-- Witness for the universally quantified half of `c6`. -/
theorem c6_witness :
    processFragment (fun s => s) [] ("BadFragmentNoColon".data) = [] :=
  c6.1 (fun s => s) [] ("BadFragmentNoColon".data) (by decide)

/-- Claim C7: for a non-reserved fragment, whenever the normalizer's output
for the trimmed key (respectively trimmed value) contains the sentinel phrase,
that output is discarded and the original trimmed token is used instead. -/
theorem c7 (f : String → String) (s : String)
    (k v : List Char) (hs : s.data = k ++ ':' :: v) (hk : ':' ∉ k)
    (hkp : '|' ∉ k) (hvp : '|' ∉ v)
    (hA : ¬ ("ASIN".data).isPrefixOf (k ++ ':' :: v)) :
    parse_specifications f s =
      [( if containsSub sentinel.data (f ⟨trimChars k⟩).data then
           (⟨trimChars k⟩ : String)
         else f ⟨trimChars k⟩,
         if containsSub sentinel.data (f ⟨trimChars v⟩).data then
           (⟨trimChars v⟩ : String)
         else f ⟨trimChars v⟩ )] := by
  rw [parse_single_fragment f s k v hs hk hkp hvp, if_neg hA]
  simp [normalizeToken]

/-- Witness for `c7` with a normalizer that echoes a sentence containing the
sentinel phrase: both outputs are discarded and the trimmed originals kept. -/
theorem c7_witness :
    parse_specifications (fun _ => "there are no glued words here")
        "GluedKey:GluedValue"
      = [("GluedKey", "GluedValue")] := by
  have h := c7 (fun _ => "there are no glued words here") "GluedKey:GluedValue"
    ("GluedKey".data) ("GluedValue".data) (by decide) (by decide) (by decide)
    (by decide) (by decide)
  exact h.trans (by decide)

/-!
Validator claims.
-/

/-- Claim C4 counterexample: for a batch missing both required columns the
validator reports only the first missing column — the error value does not
carry (or even mention) "Parsed Specifications". -/
theorem c4_counterexample :
    validate_data [] = Except.error "Missing required column: Product Name"
    ∧ ("Product Name" : String) ∉ ([] : List String)
    ∧ ("Parsed Specifications" : String) ∉ ([] : List String)
    ∧ containsSub ("Parsed Specifications".data)
        ("Missing required column: Product Name".data) = false := by
  decide

/-- Claim C4, amended: validation succeeds exactly when both required columns
are present; otherwise it reports the *first* missing required column, in the
order product name then parsed-specifications mapping. -/
theorem c4_amended (cols : List String) :
    (validate_data cols = Except.ok ()
       ↔ ("Product Name" : String) ∈ cols
         ∧ ("Parsed Specifications" : String) ∈ cols)
    ∧ (∀ e, validate_data cols = Except.error e →
        (("Product Name" : String) ∉ cols
          ∧ e = "Missing required column: Product Name")
        ∨ (("Product Name" : String) ∈ cols
          ∧ ("Parsed Specifications" : String) ∉ cols
          ∧ e = "Missing required column: Parsed Specifications")) := by
  by_cases h1 : ("Product Name" : String) ∈ cols <;>
    by_cases h2 : ("Parsed Specifications" : String) ∈ cols <;>
      simp [validate_data, required_columns, checkColumns, h1, h2]

/-- Witness for `c4_amended` at a complete column list. -/
theorem c4_witness :
    validate_data ["Product Name", "Parsed Specifications"]
      = Except.ok () :=
  (c4_amended ["Product Name", "Parsed Specifications"]).1.mpr
    ⟨by decide, by decide⟩

/-!
Decorator claim.
-/

/-- Claim C10: the transaction-error wrapper never swallows an error — every
exception of the wrapped call is re-raised with the same payload — and a
rollback is attempted exactly when the object holds a non-null transaction
handle at raise time. -/
theorem hte_error (f : TxState → Except (String × TxState) TxState)
    (s : TxState) (e : String) (s1 : TxState)
    (h : f s = Except.error (e, s1)) :
    handle_transaction_errors f s =
      match s1.tx with
      | none => Except.error (e, s1)
      | some t =>
        Except.error (e, { s1 with rollbacks := s1.rollbacks ++ [t] }) := by
  unfold handle_transaction_errors
  rw [h]

/-- Claim C10: the transaction-error wrapper never swallows an error — every
exception of the wrapped call is re-raised with the same payload — and a
rollback is attempted exactly when the object holds a non-null transaction
handle at raise time. -/
theorem c10 (f : TxState → Except (String × TxState) TxState) (s : TxState) :
    (∀ s1, f s = Except.ok s1 → handle_transaction_errors f s = Except.ok s1)
    ∧ (∀ e s1, f s = Except.error (e, s1) →
        ∃ s2, handle_transaction_errors f s = Except.error (e, s2)
          ∧ s2.tx = s1.tx
          ∧ (s1.tx = none → s2 = s1)
          ∧ (∀ t, s1.tx = some t → s2.rollbacks = s1.rollbacks ++ [t])
          ∧ (s2.rollbacks = s1.rollbacks ↔ s1.tx = none)) := by
  constructor
  · intro s1 h
    unfold handle_transaction_errors
    rw [h]
  · intro e s1 h
    rw [hte_error f s e s1 h]
    cases hx : s1.tx with
    | none =>
      refine ⟨s1, rfl, hx, fun _ => rfl, ?_, ?_⟩
      · intro t ht; exact Option.noConfusion ht
      · simp
    | some t =>
      refine ⟨⟨some t, s1.rollbacks ++ [t]⟩, rfl, rfl, ?_, ?_, ?_⟩
      · intro hnone; exact Option.noConfusion hnone
      · intro t2 ht2
        have ht3 : t = t2 := by injection ht2
        rw [ht3]
      · constructor
        · intro habs
          have hlen := congrArg List.length habs
          simp at hlen
        · intro hnone; exact Option.noConfusion hnone

/-- Witness for `c10`: a call raising "boom" with an open transaction handle
propagates "boom" and records exactly one rollback on that handle. -/
theorem c10_witness :
    handle_transaction_errors (fun s => Except.error ("boom", s))
        ⟨some 5, []⟩
      = Except.error ("boom", ⟨some 5, [5]⟩) := by
  obtain ⟨s2, h1, h2, h3, h4, h5⟩ :=
    (c10 (fun s => Except.error ("boom", s)) ⟨some 5, []⟩).2 "boom"
      ⟨some 5, []⟩ rfl
  have h6 := h4 5 rfl
  rw [h1]
  cases s2 with
  | mk tx2 rb2 =>
    simp only at h2 h6
    rw [h2, h6]
    rfl

/-!
Ingestion claims: validation gating, failure reporting, rollback.
-/

theorem create_validationError {failMsg : Op → Option String}
    {df : DataFrame} {g : Graph} {e : String}
    (h : validate_data df.columns = Except.error e) :
    create failMsg df g = ⟨Except.error e, g, []⟩ := by
  unfold create
  rw [h]

theorem create_run {failMsg : Op → Option String} {df : DataFrame} {g : Graph}
    (hv : validate_data df.columns = Except.ok ()) :
    create failMsg df g =
      match runOps failMsg g (batchOps df.rows) with
      | (Except.ok g1, tr) => ⟨Except.ok (), g1, tr⟩
      | (Except.error m, tr) => ⟨Except.error m, g, tr⟩ := by
  unfold create
  rw [hv]

/-- Claim C3: a batch whose shape misses a required column is rejected by the
up-front validation — the call fails with the validation error, no upsert
statement is ever attempted, and the store is untouched. -/
theorem c3 (failMsg : Op → Option String) (df : DataFrame) (g : Graph)
    (h : ("Product Name" : String) ∉ df.columns
         ∨ ("Parsed Specifications" : String) ∉ df.columns) :
    ∃ e, create failMsg df g = ⟨Except.error e, g, []⟩
      ∧ (e = "Missing required column: Product Name"
         ∨ e = "Missing required column: Parsed Specifications") := by
  by_cases h1 : ("Product Name" : String) ∈ df.columns
  · have h2 : ("Parsed Specifications" : String) ∉ df.columns := by
      rcases h with h2 | h2
      · exact absurd h1 h2
      · exact h2
    refine ⟨"Missing required column: Parsed Specifications",
      create_validationError ?_, Or.inr rfl⟩
    simp [validate_data, required_columns, checkColumns, h1, h2]
  · refine ⟨"Missing required column: Product Name",
      create_validationError ?_, Or.inl rfl⟩
    simp [validate_data, required_columns, checkColumns, h1]

/-- Witness for `c3`: a batch without the required columns causes zero
attempted statements and leaves the store state unchanged. -/
theorem c3_witness :
    (create noFail ⟨["Foo"], []⟩ emptyGraph).attempted = []
    ∧ (create noFail ⟨["Foo"], []⟩ emptyGraph).graph = emptyGraph := by
  obtain ⟨e, he, _⟩ := c3 noFail ⟨["Foo"], []⟩ emptyGraph (Or.inl (by decide))
  rw [he]
  exact ⟨rfl, rfl⟩

theorem runOps_error_of_mem (failMsg : Op → Option String) :
    ∀ (ops : List Op) (g : Graph), (∃ o ∈ ops, (failMsg o).isSome) →
      ∃ m tr, runOps failMsg g ops = (Except.error m, tr)
        ∧ ∃ o ∈ ops, failMsg o = some m := by
  intro ops
  induction ops with
  | nil => intro g h; simp at h
  | cons o rest ih =>
    intro g h
    cases hf : failMsg o with
    | some m =>
      exact ⟨m, [o], by simp [runOps, hf], o, List.mem_cons_self o rest, hf⟩
    | none =>
      have h2 : ∃ o2 ∈ rest, (failMsg o2).isSome := by
        rcases h with ⟨o2, ho2, hs⟩
        rcases List.mem_cons.mp ho2 with he | hm
        · rw [he, hf] at hs; simp at hs
        · exact ⟨o2, hm, hs⟩
      obtain ⟨m, tr, hrun, o2, hm2, hf2⟩ := ih (applyOp g o) h2
      refine ⟨m, o :: tr, ?_, o2, List.mem_cons_of_mem o hm2, hf2⟩
      simp [runOps, hf, hrun]

/-- Claim C1 counterexample: failures at two different record positions are
reported to the caller identically — only the underlying exception "boom" is
propagated, with no record index attached (two rows, store raising on row 0's
product upsert versus on row 1's product upsert). -/
theorem c1_counterexample :
    (create (failOn (Op.upsertProduct (productId 0) "P0" "" ""))
        ⟨["Product Name", "Parsed Specifications"],
          [[("Product Name", Value.str "P0")],
           [("Product Name", Value.str "P1")]]⟩ emptyGraph).outcome
      = Except.error "boom"
    ∧ (create (failOn (Op.upsertProduct (productId 1) "P1" "" ""))
        ⟨["Product Name", "Parsed Specifications"],
          [[("Product Name", Value.str "P0")],
           [("Product Name", Value.str "P1")]]⟩ emptyGraph).outcome
      = Except.error "boom"
    ∧ batchOps [[("Product Name", Value.str "P0")],
                [("Product Name", Value.str "P1")]]
      = [Op.upsertProduct (productId 0) "P0" "" "",
         Op.upsertProduct (productId 1) "P1" "" ""] := by
  decide

/-- Claim C1, amended: if any upsert statement of the batch raises, the whole
transaction rolls back — the visible store state is exactly the pre-call
state — and the exception propagated to the caller is the underlying cause
re-raised unchanged (the offending record's position is not attached). -/
theorem c1_amended (failMsg : Op → Option String) (df : DataFrame) (g : Graph)
    (hv : validate_data df.columns = Except.ok ())
    (hf : ∃ o ∈ batchOps df.rows, (failMsg o).isSome) :
    ∃ m, (create failMsg df g).outcome = Except.error m
      ∧ (create failMsg df g).graph = g
      ∧ ∃ o ∈ batchOps df.rows, failMsg o = some m := by
  obtain ⟨m, tr, hrun, hw⟩ := runOps_error_of_mem failMsg (batchOps df.rows) g hf
  refine ⟨m, ?_, ?_, hw⟩ <;> rw [create_run hv, hrun]

/-- Witness for `c1_amended`: a store failure on the only product upsert of a
one-row batch rolls the store back to its initial state. -/
theorem c1_witness :
    (create (failOn (Op.upsertProduct (productId 0) "P0" "" ""))
        ⟨["Product Name", "Parsed Specifications"],
          [[("Product Name", Value.str "P0")]]⟩ emptyGraph).graph
      = emptyGraph := by
  obtain ⟨m, _, hg, _⟩ :=
    c1_amended (failOn (Op.upsertProduct (productId 0) "P0" "" ""))
      ⟨["Product Name", "Parsed Specifications"],
        [[("Product Name", Value.str "P0")]]⟩ emptyGraph (by decide)
      ⟨Op.upsertProduct (productId 0) "P0" "" "", by decide, by decide⟩
  exact hg

/-- Claim C9: a non-empty category string with empty pipe-delimited fragments
("a||b", and "x|" with a trailing pipe) produces a Category node named by the
empty string and a BELONGS_TO edge from the product to it — fragments are
trimmed but never filtered out for being empty. -/
theorem c9 :
    (("" : String) ∈ (create noFail
        ⟨["Product Name", "Parsed Specifications"],
          [[("Product Name", Value.str "P"),
            ("Category", Value.str "a||b")]]⟩ emptyGraph).graph.categories
      ∧ (productId 0, ("" : String)) ∈ (create noFail
        ⟨["Product Name", "Parsed Specifications"],
          [[("Product Name", Value.str "P"),
            ("Category", Value.str "a||b")]]⟩ emptyGraph).graph.belongsTo)
    ∧ (("" : String) ∈ (create noFail
        ⟨["Product Name", "Parsed Specifications"],
          [[("Product Name", Value.str "P"),
            ("Category", Value.str "x|")]]⟩ emptyGraph).graph.categories
      ∧ (productId 0, ("" : String)) ∈ (create noFail
        ⟨["Product Name", "Parsed Specifications"],
          [[("Product Name", Value.str "P"),
            ("Category", Value.str "x|")]]⟩ emptyGraph).graph.belongsTo) := by
  decide

/-!
Statement-ordering lemmas: inside one record's statement list, node upserts
precede the edge upserts that point at them.
-/

theorem mem_catOps_cases {pid : String} {cats : List String} {o : Op}
    (h : o ∈ catOps pid cats) :
    ∃ c ∈ cats, o = Op.upsertCategory c ∨ o = Op.belongsTo pid c := by
  induction cats with
  | nil => simp [catOps] at h
  | cons c0 cs ih =>
    rcases List.mem_cons.mp h with he | h2
    · exact ⟨c0, List.mem_cons_self c0 cs, Or.inl he⟩
    · rcases List.mem_cons.mp h2 with he | h3
      · exact ⟨c0, List.mem_cons_self c0 cs, Or.inr he⟩
      · obtain ⟨c, hc, ho⟩ := ih h3
        exact ⟨c, List.mem_cons_of_mem c0 hc, ho⟩

theorem mem_specOps_cases {pid : String} {specs : List (String × String)}
    {o : Op} (h : o ∈ specOps pid specs) :
    ∃ kv ∈ specs, o = Op.upsertSpec kv.1 kv.2 ∨ o = Op.hasSpec pid kv.1 kv.2 := by
  induction specs with
  | nil => simp [specOps] at h
  | cons kv0 rest ih =>
    rcases List.mem_cons.mp h with he | h2
    · exact ⟨kv0, List.mem_cons_self kv0 rest, Or.inl he⟩
    · rcases List.mem_cons.mp h2 with he | h3
      · exact ⟨kv0, List.mem_cons_self kv0 rest, Or.inr he⟩
      · obtain ⟨kv, hkv, ho⟩ := ih h3
        exact ⟨kv, List.mem_cons_of_mem kv0 hkv, ho⟩

theorem noBelongsTo_specOps {pid p c : String}
    {specs : List (String × String)} :
    Op.belongsTo p c ∉ specOps pid specs := by
  intro h
  obtain ⟨kv, _, ho⟩ := mem_specOps_cases h
  rcases ho with ho | ho <;> exact Op.noConfusion ho

theorem catOps_split {pidX : String} (cats : List String)
    (tailOps : List Op) (l1 l2 : List Op) (pid c : String)
    (hTail : ∀ p q, Op.belongsTo p q ∉ tailOps)
    (h : catOps pidX cats ++ tailOps = l1 ++ Op.belongsTo pid c :: l2) :
    Op.upsertCategory c ∈ l1 := by
  induction cats generalizing l1 l2 with
  | nil =>
    exfalso
    apply hTail pid c
    simp only [catOps, List.nil_append] at h
    rw [h]
    exact List.mem_append_right l1 (List.mem_cons_self _ _)
  | cons c0 cs ih =>
    cases l1 with
    | nil =>
      simp only [catOps, List.cons_append, List.nil_append] at h
      injection h with h1 h2
      exact Op.noConfusion h1
    | cons x l1a =>
      simp only [catOps, List.cons_append] at h
      injection h with h1 h2
      cases l1a with
      | nil =>
        rw [List.nil_append] at h2
        injection h2 with h3 h4
        have hc : c0 = c := by injection h3
        rw [← h1, hc]
        exact List.mem_cons_self _ _
      | cons y l1b =>
        injection h2 with h3 h4
        exact List.mem_cons_of_mem x (List.mem_cons_of_mem y (ih l1b l2 h4))

theorem specOps_split {pidX : String} (specs : List (String × String))
    (l1 l2 : List Op) (pid k v : String)
    (h : specOps pidX specs = l1 ++ Op.hasSpec pid k v :: l2) :
    Op.upsertSpec k v ∈ l1 := by
  induction specs generalizing l1 l2 with
  | nil =>
    simp only [specOps] at h
    cases l1 <;> simp at h
  | cons kv rest ih =>
    cases l1 with
    | nil =>
      simp only [specOps, List.nil_append] at h
      injection h with h1 h2
      exact Op.noConfusion h1
    | cons x l1a =>
      simp only [specOps, List.cons_append] at h
      injection h with h1 h2
      cases l1a with
      | nil =>
        rw [List.nil_append] at h2
        injection h2 with h3 h4
        injection h3 with hp hk h'v
        rw [← h1, ← hk, ← h'v]
        exact List.mem_cons_self _ _
      | cons y l1b =>
        injection h2 with h3 h4
        exact List.mem_cons_of_mem x (List.mem_cons_of_mem y (ih l1b l2 h4))

theorem catSpec_split_hasSpec {pidX : String} (cats : List String)
    (specs : List (String × String)) (l1 l2 : List Op) (pid k v : String)
    (h : catOps pidX cats ++ specOps pidX specs
          = l1 ++ Op.hasSpec pid k v :: l2) :
    Op.upsertSpec k v ∈ l1 := by
  induction cats generalizing l1 l2 with
  | nil =>
    simp only [catOps, List.nil_append] at h
    exact specOps_split specs l1 l2 pid k v h
  | cons c0 cs ih =>
    cases l1 with
    | nil =>
      simp only [catOps, List.cons_append, List.nil_append] at h
      injection h with h1 h2
      exact Op.noConfusion h1
    | cons x l1a =>
      simp only [catOps, List.cons_append] at h
      injection h with h1 h2
      cases l1a with
      | nil =>
        rw [List.nil_append] at h2
        injection h2 with h3 h4
        exact Op.noConfusion h3
      | cons y l1b =>
        injection h2 with h3 h4
        exact List.mem_cons_of_mem x (List.mem_cons_of_mem y (ih l1b l2 h4))

theorem rowOps_split_belongsTo {i : Nat} {r : Row} {l1 l2 : List Op}
    {pid c : String}
    (h : rowOps i r = l1 ++ Op.belongsTo pid c :: l2) :
    (∃ n d p, Op.upsertProduct pid n d p ∈ l1) ∧ Op.upsertCategory c ∈ l1 := by
  cases l1 with
  | nil =>
    rw [List.nil_append] at h
    simp only [rowOps] at h
    injection h with h1 h2
    simp only [productOp] at h1
    exact Op.noConfusion h1
  | cons x l1a =>
    simp only [rowOps, List.cons_append] at h
    injection h with h1 h2
    have hmem : Op.belongsTo pid c
        ∈ catOps (productId i) (categoriesOf r)
          ++ specOps (productId i) (rowGetDict r "Parsed Specifications") := by
      rw [h2]
      exact List.mem_append_right l1a (List.mem_cons_self _ _)
    have hpid : pid = productId i := by
      rcases List.mem_append.mp hmem with hm | hm
      · obtain ⟨c1, _, hcase⟩ := mem_catOps_cases hm
        rcases hcase with hc | hc
        · exact Op.noConfusion hc
        · injection hc with hp hc2
      · exact absurd hm noBelongsTo_specOps
    constructor
    · refine ⟨rowGetStr r "Product Name", rowGetStr r "Description",
        rowGetStr r "Selling Price", ?_⟩
      rw [hpid, ← h1]
      exact List.mem_cons_self _ _
    · exact List.mem_cons_of_mem x
        (catOps_split (categoriesOf r)
          (specOps (productId i) (rowGetDict r "Parsed Specifications"))
          l1a l2 pid c (fun p q => noBelongsTo_specOps) h2)

theorem rowOps_split_hasSpec {i : Nat} {r : Row} {l1 l2 : List Op}
    {pid k v : String}
    (h : rowOps i r = l1 ++ Op.hasSpec pid k v :: l2) :
    (∃ n d p, Op.upsertProduct pid n d p ∈ l1) ∧ Op.upsertSpec k v ∈ l1 := by
  cases l1 with
  | nil =>
    rw [List.nil_append] at h
    simp only [rowOps] at h
    injection h with h1 h2
    simp only [productOp] at h1
    exact Op.noConfusion h1
  | cons x l1a =>
    simp only [rowOps, List.cons_append] at h
    injection h with h1 h2
    have hmem : Op.hasSpec pid k v
        ∈ catOps (productId i) (categoriesOf r)
          ++ specOps (productId i) (rowGetDict r "Parsed Specifications") := by
      rw [h2]
      exact List.mem_append_right l1a (List.mem_cons_self _ _)
    have hpid : pid = productId i := by
      rcases List.mem_append.mp hmem with hm | hm
      · obtain ⟨c1, _, hcase⟩ := mem_catOps_cases hm
        rcases hcase with hc | hc <;> exact Op.noConfusion hc
      · obtain ⟨kv, _, hcase⟩ := mem_specOps_cases hm
        rcases hcase with hc | hc
        · exact Op.noConfusion hc
        · injection hc with hp hc2
    constructor
    · refine ⟨rowGetStr r "Product Name", rowGetStr r "Description",
        rowGetStr r "Selling Price", ?_⟩
      rw [hpid, ← h1]
      exact List.mem_cons_self _ _
    · exact List.mem_cons_of_mem x
        (catSpec_split_hasSpec (categoriesOf r)
          (rowGetDict r "Parsed Specifications") l1a l2 pid k v h2)

/-- Claim C8: within one record's statement list, the product upsert precedes
every edge upsert of the record, each category upsert precedes the BELONGS_TO
edge pointing at it, and each specification upsert precedes the
HAS_SPECIFICATION edge pointing at it. -/
theorem c8 (i : Nat) (row : Row) (l1 l2 : List Op) :
    (∀ pid c, rowOps i row = l1 ++ Op.belongsTo pid c :: l2 →
        (∃ n d p, Op.upsertProduct pid n d p ∈ l1)
        ∧ Op.upsertCategory c ∈ l1)
    ∧ (∀ pid k v, rowOps i row = l1 ++ Op.hasSpec pid k v :: l2 →
        (∃ n d p, Op.upsertProduct pid n d p ∈ l1)
        ∧ Op.upsertSpec k v ∈ l1) :=
  ⟨fun _ _ h => rowOps_split_belongsTo h,
   fun _ _ _ h => rowOps_split_hasSpec h⟩

/-- Witness for `c8` on a one-category record: the product and category
upserts precede the record's BELONGS_TO edge. -/
theorem c8_witness :
    (∃ n d p, Op.upsertProduct (productId 0) n d p
        ∈ [Op.upsertProduct (productId 0) "P" "" "", Op.upsertCategory "c"])
    ∧ Op.upsertCategory "c"
        ∈ [Op.upsertProduct (productId 0) "P" "" "", Op.upsertCategory "c"] :=
  (c8 0 [("Product Name", Value.str "P"), ("Category", Value.str "c")]
      [Op.upsertProduct (productId 0) "P" "" "", Op.upsertCategory "c"] []).1
    (productId 0) "c" (by decide)

/-!
Idempotence of batch ingestion. The key notions: an upsert statement is
`established` in a store state when its effect is already present (so the
statement is a no-op there), and a statement list with node-before-edge
ordering establishes each of its statements after one pass.
-/

/-- Every product entry keyed `pid` carries exactly these scalar attributes. -/
def prodSet (g : Graph) (pid n d p : String) : Prop :=
  ∀ q ∈ g.products, q.1 = pid → q = (pid, n, d, p)

/-- The effect of a statement is already present in the store state. -/
def established (g : Graph) : Op → Prop
  | Op.upsertProduct pid n d p =>
    (∃ q ∈ g.products, q.1 = pid) ∧ prodSet g pid n d p
  | Op.upsertCategory c => c ∈ g.categories
  | Op.upsertSpec k v => (k, v) ∈ g.specs
  | Op.belongsTo pid c => (pid, c) ∈ g.belongsTo
  | Op.hasSpec pid k v => (pid, k, v) ∈ g.hasSpec

/-- Both endpoints an edge statement will `MATCH` are present. -/
def endpointsReady (g : Graph) : Op → Prop
  | Op.belongsTo pid c => (∃ q ∈ g.products, q.1 = pid) ∧ c ∈ g.categories
  | Op.hasSpec pid k v => (∃ q ∈ g.products, q.1 = pid) ∧ (k, v) ∈ g.specs
  | _ => True

/-- `o2` does not overwrite the product attributes written by `o`. -/
def noClobber (o o2 : Op) : Prop :=
  ∀ pid n d p n2 d2 p2, o = Op.upsertProduct pid n d p →
    o2 ≠ Op.upsertProduct pid n2 d2 p2

theorem mono_categories {g : Graph} {c : String} (o : Op)
    (h : c ∈ g.categories) : c ∈ (applyOp g o).categories := by
  cases o <;> simp only [applyOp] <;> split_ifs <;>
    first
      | exact h
      | exact List.mem_append_left _ h

theorem mono_specs {g : Graph} {k v : String} (o : Op)
    (h : (k, v) ∈ g.specs) : (k, v) ∈ (applyOp g o).specs := by
  cases o <;> simp only [applyOp] <;> split_ifs <;>
    first
      | exact h
      | exact List.mem_append_left _ h

theorem mono_belongsTo {g : Graph} {pid c : String} (o : Op)
    (h : (pid, c) ∈ g.belongsTo) : (pid, c) ∈ (applyOp g o).belongsTo := by
  cases o <;> simp only [applyOp] <;> split_ifs <;>
    first
      | exact h
      | exact List.mem_append_left _ h

theorem mono_hasSpec {g : Graph} {pid k v : String} (o : Op)
    (h : (pid, k, v) ∈ g.hasSpec) : (pid, k, v) ∈ (applyOp g o).hasSpec := by
  cases o <;> simp only [applyOp] <;> split_ifs <;>
    first
      | exact h
      | exact List.mem_append_left _ h

theorem mono_prodKey {g : Graph} {pid : String} (o : Op)
    (h : ∃ q ∈ g.products, q.1 = pid) :
    ∃ q ∈ (applyOp g o).products, q.1 = pid := by
  obtain ⟨q, hq, hq1⟩ := h
  cases o with
  | upsertProduct pid2 n d p =>
    simp only [applyOp]
    split_ifs with hex
    · refine ⟨if q.1 = pid2 then (pid2, n, d, p) else q,
        List.mem_map_of_mem _ hq, ?_⟩
      split_ifs with hsp
      · rw [← hsp] at *
        exact hq1
      · exact hq1
    · exact ⟨q, List.mem_append_left _ hq, hq1⟩
  | upsertCategory c => simp only [applyOp]; split_ifs <;> exact ⟨q, hq, hq1⟩
  | upsertSpec k v => simp only [applyOp]; split_ifs <;> exact ⟨q, hq, hq1⟩
  | belongsTo pid2 c => simp only [applyOp]; split_ifs <;> exact ⟨q, hq, hq1⟩
  | hasSpec pid2 k v => simp only [applyOp]; split_ifs <;> exact ⟨q, hq, hq1⟩

theorem monoOps_categories (ops : List Op) :
    ∀ {g : Graph} {c : String}, c ∈ g.categories →
      c ∈ (applyOps g ops).categories := by
  induction ops with
  | nil => intro g c h; exact h
  | cons o rest ih => intro g c h; exact ih (mono_categories o h)

theorem monoOps_specs (ops : List Op) :
    ∀ {g : Graph} {k v : String}, (k, v) ∈ g.specs →
      (k, v) ∈ (applyOps g ops).specs := by
  induction ops with
  | nil => intro g k v h; exact h
  | cons o rest ih => intro g k v h; exact ih (mono_specs o h)

theorem monoOps_prodKey (ops : List Op) :
    ∀ {g : Graph} {pid : String}, (∃ q ∈ g.products, q.1 = pid) →
      ∃ q ∈ (applyOps g ops).products, q.1 = pid := by
  induction ops with
  | nil => intro g pid h; exact h
  | cons o rest ih => intro g pid h; exact ih (mono_prodKey o h)

theorem est_upsertProduct (g : Graph) (pid n d p : String) :
    established (applyOp g (Op.upsertProduct pid n d p))
      (Op.upsertProduct pid n d p) := by
  simp only [applyOp, established]
  split_ifs with hex
  · constructor
    · obtain ⟨q, hq, hq1⟩ := hex
      refine ⟨(pid, n, d, p), List.mem_map.mpr ⟨q, hq, ?_⟩, rfl⟩
      simp only [if_pos hq1]
    · intro r hr hr1
      obtain ⟨q0, hq0, hfq⟩ := List.mem_map.mp hr
      by_cases h0 : q0.1 = pid
      · rw [if_pos h0] at hfq
        exact hfq.symm
      · rw [if_neg h0] at hfq
        rw [← hfq] at hr1
        exact absurd hr1 h0
  · constructor
    · exact ⟨(pid, n, d, p),
        List.mem_append_right _ (List.mem_cons_self _ _), rfl⟩
    · intro r hr hr1
      rcases List.mem_append.mp hr with hm | hm
      · exact absurd ⟨r, hm, hr1⟩ hex
      · rcases List.mem_cons.mp hm with he | he
        · exact he
        · exact absurd he (List.not_mem_nil r)

theorem est_upsertCategory (g : Graph) (c : String) :
    established (applyOp g (Op.upsertCategory c)) (Op.upsertCategory c) := by
  simp only [applyOp, established]
  split_ifs with hex
  · exact hex
  · exact List.mem_append_right _ (List.mem_cons_self _ _)

theorem est_upsertSpec (g : Graph) (k v : String) :
    established (applyOp g (Op.upsertSpec k v)) (Op.upsertSpec k v) := by
  simp only [applyOp, established]
  split_ifs with hex
  · exact hex
  · exact List.mem_append_right _ (List.mem_cons_self _ _)

theorem est_belongsTo (g : Graph) (pid c : String)
    (hready : (∃ q ∈ g.products, q.1 = pid) ∧ c ∈ g.categories) :
    established (applyOp g (Op.belongsTo pid c)) (Op.belongsTo pid c) := by
  simp only [applyOp, established]
  rw [if_pos hready]
  split_ifs with he
  · exact he
  · exact List.mem_append_right _ (List.mem_cons_self _ _)

theorem est_hasSpec (g : Graph) (pid k v : String)
    (hready : (∃ q ∈ g.products, q.1 = pid) ∧ (k, v) ∈ g.specs) :
    established (applyOp g (Op.hasSpec pid k v)) (Op.hasSpec pid k v) := by
  simp only [applyOp, established]
  rw [if_pos hready]
  split_ifs with he
  · exact he
  · exact List.mem_append_right _ (List.mem_cons_self _ _)

theorem prodSet_applyOp {g : Graph} {pid n d p : String} (o : Op)
    (hne : ∀ n2 d2 p2, o ≠ Op.upsertProduct pid n2 d2 p2)
    (h : prodSet g pid n d p) : prodSet (applyOp g o) pid n d p := by
  cases o with
  | upsertProduct pid2 n2 d2 p2 =>
    have hp : ¬ pid2 = pid := by
      intro he
      exact hne n2 d2 p2 (by rw [he])
    simp only [applyOp]
    split_ifs with hex
    · intro r hr hr1
      obtain ⟨q0, hq0, hfq⟩ := List.mem_map.mp hr
      by_cases h0 : q0.1 = pid2
      · rw [if_pos h0] at hfq
        rw [← hfq] at hr1
        exact absurd hr1 hp
      · rw [if_neg h0] at hfq
        rw [← hfq] at hr1 ⊢
        exact h q0 hq0 hr1
    · intro r hr hr1
      rcases List.mem_append.mp hr with hm | hm
      · exact h r hm hr1
      · rcases List.mem_cons.mp hm with he | he
        · rw [he] at hr1
          exact absurd hr1 hp
        · exact absurd he (List.not_mem_nil r)
  | upsertCategory c => simp only [applyOp]; split_ifs <;> exact h
  | upsertSpec k v => simp only [applyOp]; split_ifs <;> exact h
  | belongsTo pid2 c => simp only [applyOp]; split_ifs <;> exact h
  | hasSpec pid2 k v => simp only [applyOp]; split_ifs <;> exact h

theorem established_applyOp {o o2 : Op} {g : Graph}
    (h : established g o) (hnc : noClobber o o2) :
    established (applyOp g o2) o := by
  cases o with
  | upsertProduct pid n d p =>
    obtain ⟨hpres, hset⟩ := h
    refine ⟨mono_prodKey o2 hpres, prodSet_applyOp o2 ?_ hset⟩
    intro n2 d2 p2
    exact hnc pid n d p n2 d2 p2 rfl
  | upsertCategory c => exact mono_categories o2 h
  | upsertSpec k v => exact mono_specs o2 h
  | belongsTo pid c => exact mono_belongsTo o2 h
  | hasSpec pid k v => exact mono_hasSpec o2 h

theorem established_applyOps {o : Op} (ops : List Op) :
    ∀ {g : Graph}, established g o → (∀ o2 ∈ ops, noClobber o o2) →
      established (applyOps g ops) o := by
  induction ops with
  | nil => intro g h _; exact h
  | cons o2 rest ih =>
    intro g h hnc
    exact ih (established_applyOp h (hnc o2 (List.mem_cons_self _ _)))
      (fun o3 h3 => hnc o3 (List.mem_cons_of_mem o2 h3))

theorem applyOps_upsertCategory_mem (ops : List Op) :
    ∀ {g : Graph} {c : String}, Op.upsertCategory c ∈ ops →
      c ∈ (applyOps g ops).categories := by
  induction ops with
  | nil => intro g c h; exact absurd h (List.not_mem_nil _)
  | cons o rest ih =>
    intro g c h
    rcases List.mem_cons.mp h with he | hm
    · rw [← he]
      exact monoOps_categories rest (est_upsertCategory g c)
    · exact ih hm

theorem applyOps_upsertSpec_mem (ops : List Op) :
    ∀ {g : Graph} {k v : String}, Op.upsertSpec k v ∈ ops →
      (k, v) ∈ (applyOps g ops).specs := by
  induction ops with
  | nil => intro g k v h; exact absurd h (List.not_mem_nil _)
  | cons o rest ih =>
    intro g k v h
    rcases List.mem_cons.mp h with he | hm
    · rw [← he]
      exact monoOps_specs rest (est_upsertSpec g k v)
    · exact ih hm

theorem applyOps_upsertProduct_key (ops : List Op) :
    ∀ {g : Graph} {pid n d p : String}, Op.upsertProduct pid n d p ∈ ops →
      ∃ q ∈ (applyOps g ops).products, q.1 = pid := by
  induction ops with
  | nil => intro g pid n d p h; exact absurd h (List.not_mem_nil _)
  | cons o rest ih =>
    intro g pid n d p h
    rcases List.mem_cons.mp h with he | hm
    · rw [← he]
      exact monoOps_prodKey rest (est_upsertProduct g pid n d p).1
    · exact ih hm

/-!
Uniqueness of product ids inside one batch: the decimal rendering of the row
index is injective, so distinct rows upsert distinct product nodes.
-/

theorem string_append_data (s t : String) :
    (s ++ t).data = s.data ++ t.data := by
  cases s
  cases t
  rfl

theorem productId_inj {i j : Nat} (h : productId i = productId j) : i = j := by
  have h2 := congrArg String.data h
  rw [productId, productId, string_append_data, string_append_data] at h2
  have h3 := List.append_cancel_left h2
  exact natToStringAux_inj h3

/-- The product ids targeted by the product upserts of a statement list. -/
def pidsOf (ops : List Op) : List String :=
  ops.filterMap (fun o =>
    match o with
    | Op.upsertProduct pid _ _ _ => some pid
    | _ => none)

theorem pidsOf_append (l1 l2 : List Op) :
    pidsOf (l1 ++ l2) = pidsOf l1 ++ pidsOf l2 := by
  simp [pidsOf]

theorem pid_mem_pidsOf {pid n d p : String} {l : List Op}
    (h : Op.upsertProduct pid n d p ∈ l) : pid ∈ pidsOf l := by
  unfold pidsOf
  exact List.mem_filterMap.mpr ⟨Op.upsertProduct pid n d p, h, rfl⟩

theorem pidsOf_catOps (pid : String) (cats : List String) :
    pidsOf (catOps pid cats) = [] := by
  induction cats with
  | nil => rfl
  | cons c cs ih => simp [catOps, pidsOf, List.filterMap_cons] at ih ⊢; exact ih

theorem pidsOf_specOps (pid : String) (specs : List (String × String)) :
    pidsOf (specOps pid specs) = [] := by
  induction specs with
  | nil => rfl
  | cons kv rest ih =>
    simp [specOps, pidsOf, List.filterMap_cons] at ih ⊢; exact ih

theorem pidsOf_rowOps (i : Nat) (r : Row) :
    pidsOf (rowOps i r) = [productId i] := by
  have h1 := pidsOf_catOps (productId i) (categoriesOf r)
  have h2 := pidsOf_specOps (productId i) (rowGetDict r "Parsed Specifications")
  unfold pidsOf at h1 h2 ⊢
  simp only [rowOps, productOp, List.filterMap_cons, List.filterMap_append,
    h1, h2]
  rfl

theorem mem_pids_batchOpsFrom (rows : List Row) :
    ∀ (i : Nat) (x : String), x ∈ pidsOf (batchOpsFrom i rows) →
      ∃ k, i ≤ k ∧ x = productId k := by
  induction rows with
  | nil => intro i x h; simp [batchOpsFrom, pidsOf] at h
  | cons r rs ih =>
    intro i x h
    rw [show batchOpsFrom i (r :: rs) = rowOps i r ++ batchOpsFrom (i + 1) rs
          from rfl,
        pidsOf_append, pidsOf_rowOps] at h
    rcases List.mem_append.mp h with hm | hm
    · rcases List.mem_cons.mp hm with he | he
      · exact ⟨i, Nat.le_refl i, he⟩
      · exact absurd he (List.not_mem_nil x)
    · obtain ⟨k, hk, hx⟩ := ih (i + 1) x hm
      exact ⟨k, by omega, hx⟩

theorem nodup_pids_batchOpsFrom (rows : List Row) :
    ∀ i : Nat, (pidsOf (batchOpsFrom i rows)).Nodup := by
  induction rows with
  | nil => intro i; simp [batchOpsFrom, pidsOf]
  | cons r rs ih =>
    intro i
    rw [show batchOpsFrom i (r :: rs) = rowOps i r ++ batchOpsFrom (i + 1) rs
          from rfl,
        pidsOf_append, pidsOf_rowOps, List.singleton_append, List.nodup_cons]
    constructor
    · intro hmem
      obtain ⟨k, hk, hx⟩ := mem_pids_batchOpsFrom rs (i + 1) (productId i) hmem
      have h2 := productId_inj hx
      omega
    · exact ih (i + 1)

/-!
Batch-level node-before-edge ordering, lifted from the per-row lemmas.
-/

theorem batchOpsFrom_split_belongsTo (rows : List Row) :
    ∀ (i : Nat) (l1 l2 : List Op) (pid c : String),
      batchOpsFrom i rows = l1 ++ Op.belongsTo pid c :: l2 →
      (∃ n d p, Op.upsertProduct pid n d p ∈ l1)
      ∧ Op.upsertCategory c ∈ l1 := by
  induction rows with
  | nil =>
    intro i l1 l2 pid c h
    simp only [batchOpsFrom] at h
    cases l1 <;> simp at h
  | cons r rs ih =>
    intro i l1 l2 pid c h
    rw [show batchOpsFrom i (r :: rs) = rowOps i r ++ batchOpsFrom (i + 1) rs
          from rfl] at h
    rcases List.append_eq_append_iff.mp h with ⟨a2, hl1, hrest⟩ | ⟨c2, hrow, hd⟩
    · obtain ⟨⟨n, d, p, hm⟩, hm2⟩ := ih (i + 1) a2 l2 pid c hrest
      subst hl1
      exact ⟨⟨n, d, p, List.mem_append_right _ hm⟩,
        List.mem_append_right _ hm2⟩
    · cases c2 with
      | nil =>
        rw [List.nil_append] at hd
        obtain ⟨⟨n, d, p, hm⟩, _⟩ := ih (i + 1) [] l2 pid c hd.symm
        exact absurd hm (List.not_mem_nil _)
      | cons e0 c2a =>
        injection hd with hd1 hd2
        rw [← hd1] at hrow
        exact rowOps_split_belongsTo hrow

theorem batchOpsFrom_split_hasSpec (rows : List Row) :
    ∀ (i : Nat) (l1 l2 : List Op) (pid k v : String),
      batchOpsFrom i rows = l1 ++ Op.hasSpec pid k v :: l2 →
      (∃ n d p, Op.upsertProduct pid n d p ∈ l1)
      ∧ Op.upsertSpec k v ∈ l1 := by
  induction rows with
  | nil =>
    intro i l1 l2 pid k v h
    simp only [batchOpsFrom] at h
    cases l1 <;> simp at h
  | cons r rs ih =>
    intro i l1 l2 pid k v h
    rw [show batchOpsFrom i (r :: rs) = rowOps i r ++ batchOpsFrom (i + 1) rs
          from rfl] at h
    rcases List.append_eq_append_iff.mp h with ⟨a2, hl1, hrest⟩ | ⟨c2, hrow, hd⟩
    · obtain ⟨⟨n, d, p, hm⟩, hm2⟩ := ih (i + 1) a2 l2 pid k v hrest
      subst hl1
      exact ⟨⟨n, d, p, List.mem_append_right _ hm⟩,
        List.mem_append_right _ hm2⟩
    · cases c2 with
      | nil =>
        rw [List.nil_append] at hd
        obtain ⟨⟨n, d, p, hm⟩, _⟩ := ih (i + 1) [] l2 pid k v hd.symm
        exact absurd hm (List.not_mem_nil _)
      | cons e0 c2a =>
        injection hd with hd1 hd2
        rw [← hd1] at hrow
        exact rowOps_split_hasSpec hrow

/-!
An established statement is a no-op, and one pass over a batch establishes
every one of its statements.
-/

theorem mapCongrId {α : Type} (f : α → α) (l : List α)
    (h : ∀ x ∈ l, f x = x) : l.map f = l := by
  induction l with
  | nil => rfl
  | cons a as ih =>
    rw [List.map_cons, h a (List.mem_cons_self a as),
      ih (fun x hx => h x (List.mem_cons_of_mem a hx))]

theorem applyOp_established_eq {g : Graph} {o : Op} (h : established g o) :
    applyOp g o = g := by
  cases o with
  | upsertProduct pid n d p =>
    obtain ⟨hpres, hset⟩ := h
    simp only [applyOp]
    rw [if_pos hpres]
    have hmap : g.products.map
        (fun q => if q.1 = pid then (pid, n, d, p) else q) = g.products := by
      apply mapCongrId
      intro q hq
      by_cases h0 : q.1 = pid
      · rw [if_pos h0]
        exact (hset q hq h0).symm
      · rw [if_neg h0]
    rw [hmap]
  | upsertCategory c =>
    have h2 : c ∈ g.categories := h
    simp only [applyOp]
    rw [if_pos h2]
  | upsertSpec k v =>
    have h2 : (k, v) ∈ g.specs := h
    simp only [applyOp]
    rw [if_pos h2]
  | belongsTo pid c =>
    have h2 : (pid, c) ∈ g.belongsTo := h
    simp only [applyOp]
    by_cases hc : (∃ q ∈ g.products, q.1 = pid) ∧ c ∈ g.categories
    · rw [if_pos hc, if_pos h2]
    · rw [if_neg hc]
  | hasSpec pid k v =>
    have h2 : (pid, k, v) ∈ g.hasSpec := h
    simp only [applyOp]
    by_cases hc : (∃ q ∈ g.products, q.1 = pid) ∧ (k, v) ∈ g.specs
    · rw [if_pos hc, if_pos h2]
    · rw [if_neg hc]

theorem applyOps_id {g : Graph} (ops : List Op)
    (hfix : ∀ o ∈ ops, applyOp g o = g) : applyOps g ops = g := by
  induction ops with
  | nil => rfl
  | cons o rest ih =>
    show applyOps (applyOp g o) rest = g
    rw [hfix o (List.mem_cons_self _ _)]
    exact ih (fun o2 h2 => hfix o2 (List.mem_cons_of_mem o h2))

theorem applyOps_append (g : Graph) (l1 l2 : List Op) :
    applyOps g (l1 ++ l2) = applyOps (applyOps g l1) l2 := by
  simp [applyOps, List.foldl_append]

theorem established_batchFrom (rows : List Row) (i : Nat) (g : Graph) :
    ∀ o ∈ batchOpsFrom i rows,
      established (applyOps g (batchOpsFrom i rows)) o := by
  intro o ho
  obtain ⟨l1, l2, hdec⟩ := List.append_of_mem ho
  have hg1 : applyOps g (batchOpsFrom i rows)
      = applyOps (applyOp (applyOps g l1) o) l2 := by
    rw [hdec, applyOps_append]
    rfl
  rw [hg1]
  have hnc : ∀ o2 ∈ l2, noClobber o o2 := by
    intro o2 h2 pid n d p n2 d2 p2 ho2 he2
    subst ho2
    subst he2
    have hnodup := nodup_pids_batchOpsFrom rows i
    rw [hdec, pidsOf_append] at hnodup
    have hcons : pidsOf (Op.upsertProduct pid n d p :: l2)
        = pid :: pidsOf l2 := by
      unfold pidsOf
      rw [List.filterMap_cons]
    rw [hcons] at hnodup
    have h3 : (pid :: pidsOf l2).Nodup := List.Nodup.of_append_right hnodup
    exact (List.nodup_cons.mp h3).1 (pid_mem_pidsOf h2)
  refine established_applyOps l2 ?_ hnc
  cases o with
  | upsertProduct pid n d p => exact est_upsertProduct _ pid n d p
  | upsertCategory c => exact est_upsertCategory _ c
  | upsertSpec k v => exact est_upsertSpec _ k v
  | belongsTo pid c =>
    obtain ⟨⟨n, d, p, hm⟩, hm2⟩ :=
      batchOpsFrom_split_belongsTo rows i l1 l2 pid c hdec
    exact est_belongsTo _ pid c
      ⟨applyOps_upsertProduct_key l1 hm, applyOps_upsertCategory_mem l1 hm2⟩
  | hasSpec pid k v =>
    obtain ⟨⟨n, d, p, hm⟩, hm2⟩ :=
      batchOpsFrom_split_hasSpec rows i l1 l2 pid k v hdec
    exact est_hasSpec _ pid k v
      ⟨applyOps_upsertProduct_key l1 hm, applyOps_upsertSpec_mem l1 hm2⟩

theorem applyOps_batch_twice (rows : List Row) (g : Graph) :
    applyOps (applyOps g (batchOps rows)) (batchOps rows)
      = applyOps g (batchOps rows) := by
  apply applyOps_id
  intro o ho
  exact applyOp_established_eq (established_batchFrom rows 0 g o ho)

theorem runOps_noFail (ops : List Op) :
    ∀ g : Graph, runOps noFail g ops = (Except.ok (applyOps g ops), ops) := by
  induction ops with
  | nil => intro g; rfl
  | cons o rest ih =>
    intro g
    simp only [runOps, noFail]
    rw [ih (applyOp g o)]
    rfl

theorem create_noFail {df : DataFrame} {g : Graph}
    (hv : validate_data df.columns = Except.ok ()) :
    create noFail df g
      = ⟨Except.ok (), applyOps g (batchOps df.rows), batchOps df.rows⟩ := by
  rw [create_run hv, runOps_noFail]

/-- Claim C2: ingesting the same batch twice yields a store state identical
to ingesting it once — the second run creates no node or edge and changes no
state, for every batch and every starting store state. -/
theorem c2 (df : DataFrame) (g : Graph)
    (hv : validate_data df.columns = Except.ok ()) :
    (create noFail df ((create noFail df g).graph)).graph
      = (create noFail df g).graph
    ∧ (create noFail df ((create noFail df g).graph)).outcome
      = Except.ok () := by
  have h1 : (create noFail df g).graph = applyOps g (batchOps df.rows) := by
    rw [create_noFail hv]
  rw [h1, create_noFail hv]
  exact ⟨applyOps_batch_twice df.rows g, rfl⟩

/-- Witness for `c2` on a concrete one-row batch with categories and a
specification. -/
theorem c2_witness :
    (create noFail
        ⟨["Product Name", "Parsed Specifications"],
          [[("Product Name", Value.str "P"), ("Category", Value.str "a|b"),
            ("Parsed Specifications", Value.dict [("k", "v")])]]⟩
        ((create noFail
          ⟨["Product Name", "Parsed Specifications"],
            [[("Product Name", Value.str "P"), ("Category", Value.str "a|b"),
              ("Parsed Specifications", Value.dict [("k", "v")])]]⟩
          emptyGraph).graph)).graph
      = (create noFail
          ⟨["Product Name", "Parsed Specifications"],
            [[("Product Name", Value.str "P"), ("Category", Value.str "a|b"),
              ("Parsed Specifications", Value.dict [("k", "v")])]]⟩
          emptyGraph).graph :=
  (c2 ⟨["Product Name", "Parsed Specifications"],
      [[("Product Name", Value.str "P"), ("Category", Value.str "a|b"),
        ("Parsed Specifications", Value.dict [("k", "v")])]]⟩
    emptyGraph (by decide)).1

end KGProducts
